import Mathlib

/-!
Shallow embedding of the PCX decoder (`src/IMG_pcx.c`) from SDL_image.

The decoder consumes an abstract seekable byte stream.  SDL's stream
primitives (`SDL_ReadIO`, `SDL_SeekIO`, `SDL_TellIO`), allocators and
surface constructor are external collaborators whose sources are not part
of this repository; they are modelled from the spec as noted on each
definition.  Everything else is translated directly from `IMG_pcx.c`.

Bytes are represented as `Nat` values (< 256 on any real stream); the C
`int` run counter is an unbounded `Int`, which agrees with the 32-bit
counter on every execution that performs fewer than 2^31 decrements.
-/

namespace PCX

/-- Modelled from the spec: the abstract seekable byte stream (§1, §4.1) —
a byte sequence plus a cursor, as provided by SDL's memory IO streams. -/
structure MemStream where
  data : List Nat
  pos  : Nat
deriving DecidableEq, Repr

/-- Bytes left between the cursor and the end of the stream. -/
def MemStream.remaining (s : MemStream) : Nat := s.data.length - s.pos

/-- Modelled from the spec: `SDL_ReadIO` — reads up to `n` bytes at the
cursor, returning the bytes obtained and the advanced stream.  A short
read (fewer than `n` bytes) happens exactly at end of stream. -/
def readBytes (s : MemStream) (n : Nat) : List Nat × MemStream :=
  let k := min n s.remaining
  ((s.data.drop s.pos).take k, ⟨s.data, s.pos + k⟩)

/-- Modelled from the spec: a single-byte `SDL_ReadIO`, `none` at end of
stream. -/
def readByte (s : MemStream) : Option (Nat × MemStream) :=
  match s.data[s.pos]? with
  | none => none
  | some b => some (b, ⟨s.data, s.pos + 1⟩)

/-- Modelled from the spec: `SDL_SeekIO(src, ofs, SDL_IO_SEEK_SET)` —
moves the cursor to an absolute offset; an out-of-range offset fails and
leaves the cursor unchanged. -/
def seekSet (s : MemStream) (ofs : Int) : MemStream :=
  if 0 ≤ ofs ∧ ofs ≤ (s.data.length : Int) then ⟨s.data, ofs.toNat⟩ else s

/-- Modelled from the spec: `SDL_SeekIO(src, ofs, SDL_IO_SEEK_END)` —
moves the cursor to `length + ofs`; an out-of-range target fails and
leaves the cursor unchanged. -/
def seekEnd (s : MemStream) (ofs : Int) : MemStream :=
  let np : Int := (s.data.length : Int) + ofs
  if 0 ≤ np ∧ np ≤ (s.data.length : Int) then ⟨s.data, np.toNat⟩ else s

/-- The run-length decoder state of `IMG_LoadPCX_IO`: the C locals
`int count` and `Uint8 ch`, declared at function scope and never reset
between rows. -/
structure RLE where
  count : Int
  ch    : Nat
deriving DecidableEq, Repr

/-- One iteration of the RLE loop body (IMG_pcx.c lines 170–189): when
`count` is zero read a control byte (and, for a run, the literal byte);
then emit `ch` and decrement `count`. -/
def rleStep (st : RLE) (s : MemStream) : Option (Nat × RLE × MemStream) :=
  if st.count = 0 then
    match readByte s with
    | none => none
    | some (c, s1) =>
      if c < 0xc0 then
        some (c, ⟨0, c⟩, s1)
      else
        match readByte s1 with
        | none => none
        | some (lit, s2) => some (lit, ⟨(c : Int) - 0xc0 - 1, lit⟩, s2)
  else
    some (st.ch, ⟨st.count - 1, st.ch⟩, s)

/-- The RLE inner loop `for (i = 0; i < bpl; i++)` producing `n` output
bytes (one row uses `n = bpl`); `none` models the `file truncated` exits. -/
def rleFill (st : RLE) (s : MemStream) : Nat → Option (List Nat × RLE × MemStream)
  | 0 => some ([], st, s)
  | n + 1 =>
    match rleStep st s with
    | none => none
    | some (b, st1, s1) =>
      match rleFill st1 s1 n with
      | none => none
      | some (bs, st2, s2) => some (b :: bs, st2, s2)

/-- The probe `IMG_isPCX` (IMG_pcx.c lines 60–86): remember the cursor, read the
128-byte header, check manufacturer 10, version 5 and encoding 1 or 0,
then seek back to the remembered cursor.  A null stream yields `false`
with no other effect. -/
def IMG_isPCX : Option MemStream → Bool × Option MemStream
  | none => (false, none)
  | some s =>
    let start := s.pos
    let r := readBytes s 128
    let is_PCX : Bool :=
      if r.1.length = 128 then
        if r.1.getD 0 0 = 10 ∧ r.1.getD 1 0 = 5 ∧
            (r.1.getD 2 0 = 1 ∨ r.1.getD 2 0 = 0) then true
        else false
      else false
    (is_PCX, some (seekSet r.2 (start : Int)))

/-- The fields of `struct PCXheader` that the decoder reads, after the
`SDL_Swap16LE` normalisation; signed 16-bit fields are `Int` values. -/
structure PCXheader where
  Manufacturer : Nat
  Version : Nat
  Encoding : Nat
  BitsPerPixel : Nat
  Xmin : Int
  Ymin : Int
  Xmax : Int
  Ymax : Int
  Colormap : List Nat
  NPlanes : Nat
  BytesPerLine : Int
deriving DecidableEq, Repr

/-- Little-endian signed 16-bit field at byte offset `i` of the header
block (the value of an `Sint16` field after `SDL_Swap16LE`). -/
def sint16LE (bs : List Nat) (i : Nat) : Int :=
  let v := bs.getD i 0 + 256 * bs.getD (i + 1) 0
  if v < 32768 then (v : Int) else (v : Int) - 65536

/-- Parse the 128 header bytes at their fixed offsets: bytes 0–3 are
manufacturer, version, encoding, bits-per-pixel; offsets 4/6/8/10 the
bounding box; 16–63 the embedded colormap; 65 the plane count; 66 the
bytes-per-line field. -/
def parseHeader (bs : List Nat) : PCXheader where
  Manufacturer := bs.getD 0 0
  Version := bs.getD 1 0
  Encoding := bs.getD 2 0
  BitsPerPixel := bs.getD 3 0
  Xmin := sint16LE bs 4
  Ymin := sint16LE bs 6
  Xmax := sint16LE bs 8
  Ymax := sint16LE bs 10
  Colormap := (bs.drop 16).take 48
  NPlanes := bs.getD 65 0
  BytesPerLine := sint16LE bs 66

/-- One `SDL_Color` entry (r, g, b) of the output palette. -/
structure RGB where
  r : Nat
  g : Nat
  b : Nat
deriving DecidableEq, Repr

/-- Modelled from the spec: the output raster (§3) produced by the external
`SDL_CreateSurface` — geometry, byte depth, row stride, zero-initialised
pixel bytes addressed row-by-row through the stride, and the optional
palette.  The stride is modelled as the packed row width
`width × bytes-per-pixel`; the spec requires only that rows be addressed
by stride. -/
structure Surface where
  w : Int
  h : Int
  bytesPP : Nat
  pitch : Nat
  pixels : List Nat
  palette : Option (List RGB)
deriving DecidableEq, Repr

/-- The values taken by the C `error` variable of `IMG_LoadPCX_IO`, one
constructor per error string (spec taxonomy §7). -/
inductive DecodeError
  | truncated
  | unsupportedFormat
  | corruptData
  | outOfMemory
  | paletteFailure
deriving DecidableEq, Repr

/-- Modelled from the spec: outcome of the external allocators
(`SDL_CreateSurface`, `SDL_calloc`, `SDL_CreateSurfacePalette`), which the
spec exposes only as a possible `AllocationFailure` (§7). -/
structure AllocOracle where
  surfaceOk : Bool
  bufOk : Bool
  paletteOk : Bool
deriving DecidableEq, Repr

/-- The `size_t` conversion of a C `int` value (64-bit `size_t`). -/
def toSizeT (i : Int) : Nat := (i % (2 : Int) ^ 64).toNat

/-- Write the bytes `bs` into `pix` starting at offset `off`, clipped to
the end of `pix` (list-functional form of an in-bounds byte-range store). -/
def writeBytes (pix : List Nat) (off : Nat) (bs : List Nat) : List Nat :=
  pix.take off ++ bs.take (pix.length - off) ++ pix.drop (off + bs.length)

/-- One row's scanline fill (lines 164–190): `Encoding = 0` reads `bpl` raw
bytes (`file truncated` on a short read), anything else runs the
run-length loop. -/
def fillRowBuf (encoding bpl : Nat) (st : RLE) (s : MemStream) :
    Option (List Nat × RLE × MemStream) :=
  if encoding = 0 then
    let r := readBytes s bpl
    if r.1.length = bpl then some (r.1, st, r.2) else none
  else
    rleFill st s bpl

/-- Innermost bit loop of the ≤4-bit planar expansion (lines 200–206):
the fuel `m` visits bit positions `k = m-1` down to `0` (so `m = 8` starts
at the most significant bit); a bit is ORed into the pixel byte at
`off + x` (and `x` advances) only when `j*8 + k < width`. -/
def planarKLoop (byte j : Nat) (width : Int) (plane off : Nat) :
    Nat → List Nat → Nat → List Nat × Nat
  | 0, pix, x => (pix, x)
  | m + 1, pix, x =>
    let k := m
    let bit := (byte >>> k) &&& 1
    if ((j * 8 + k : Nat) : Int) < width then
      planarKLoop byte j width plane off m
        (pix.set (off + x) (pix.getD (off + x) 0 ||| (bit <<< plane))) (x + 1)
    else
      planarKLoop byte j width plane off m pix x

/-- Byte loop of the planar expansion (lines 198–207): processes `rem`
remaining plane bytes starting at byte index `j`; the current plane's
bytes sit at `buf[base + j]` (`base` is where `innerSrc` points when the
plane starts). -/
def planarJLoop (buf : List Nat) (base : Nat) (width : Int) (plane off : Nat) :
    Nat → Nat → List Nat → Nat → List Nat
  | _, 0, pix, _ => pix
  | j, r + 1, pix, x =>
    let byte := buf.getD (base + j) 0
    let p1 := planarKLoop byte j width plane off 8 pix x
    planarJLoop buf base width plane off (j + 1) r p1.1 p1.2

/-- Plane loop of the ≤4-bit planar expansion (lines 196–208): each plane
re-starts `x` at 0 and reads the next `BytesPerLine` bytes of `buf`
(`innerSrc` continues where the previous plane stopped). -/
def planarPlanes (buf : List Nat) (bytesPerLine width : Int) (off : Nat) :
    Nat → Nat → List Nat → List Nat
  | _, 0, pix => pix
  | plane, r + 1, pix =>
    let pix1 := planarJLoop buf (plane * bytesPerLine.toNat) width plane off
      0 bytesPerLine.toNat pix 0
    planarPlanes buf bytesPerLine width off (plane + 1) r pix1

/-- The whole ≤4-bit planar reconstruction of one row at row offset `off`. -/
def expandPlanar (buf : List Nat) (nplanes : Nat) (bytesPerLine width : Int)
    (off : Nat) (pix : List Nat) : List Nat :=
  planarPlanes buf bytesPerLine width off 0 nplanes pix

/-- Innermost pixel loop of the 24-bit de-interlace (lines 221–228): before
each write, the source pointer position `base + x` is checked against the
buffer end `bpl` and the destination offset `dst` against the row end
`pitch`; a failing check is the `decoding out of bounds (corrupt?)` error.
On success `buf[base+x]` is stored at row offset `dst` and `dst` advances
by `nplanes`. -/
def deintX (buf : List Nat) (bpl base : Int) (nplanes pitch off : Nat) :
    Nat → Nat → Nat → List Nat → Option (List Nat)
  | 0, _, _, pix => some pix
  | r + 1, x, dst, pix =>
    if bpl ≤ base + (x : Int) ∨ pitch ≤ dst then none
    else
      deintX buf bpl base nplanes pitch off r (x + 1) (dst + nplanes)
        (pix.set (off + dst) (buf.getD (base + (x : Int)).toNat 0))

/-- Plane loop of the 24-bit de-interlace (lines 217–230): plane `p` writes
to destination offsets `p, p + NPlanes, …` and reads from
`buf[p·BytesPerLine + x]`. -/
def deintPlanes (buf : List Nat) (bpl bytesPerLine width : Int)
    (nplanes pitch off : Nat) : Nat → Nat → List Nat → Option (List Nat)
  | 0, _, pix => some pix
  | r + 1, plane, pix =>
    match deintX buf bpl ((plane : Int) * bytesPerLine) nplanes pitch off
        width.toNat 0 plane pix with
    | none => none
    | some pix1 =>
      deintPlanes buf bpl bytesPerLine width nplanes pitch off r (plane + 1) pix1

/-- The whole 24-bit de-interlace of one row at row offset `off`. -/
def deinterlaceRow (buf : List Nat) (bpl bytesPerLine width : Int)
    (nplanes pitch off : Nat) (pix : List Nat) : Option (List Nat) :=
  deintPlanes buf bpl bytesPerLine width nplanes pitch off nplanes 0 pix

/-- The per-row loop of `IMG_LoadPCX_IO` (lines 161–234): fill the scanline
buffer, reconstruct pixels according to `src_bits`, advance the row offset
by the pitch, threading run-length state and stream. -/
def rowLoop (enc srcBits bpl : Nat) (bytesPerLine width : Int)
    (nplanes pitch : Nat) :
    Nat → Nat → RLE → MemStream → List Nat →
      Except DecodeError (List Nat × RLE × MemStream)
  | 0, _, st, s, pix => .ok (pix, st, s)
  | r + 1, off, st, s, pix =>
    match fillRowBuf enc bpl st s with
    | none => .error .truncated
    | some (buf, st1, s1) =>
      if srcBits ≤ 4 then
        rowLoop enc srcBits bpl bytesPerLine width nplanes pitch r (off + pitch)
          st1 s1 (expandPlanar buf nplanes bytesPerLine width off pix)
      else if srcBits = 8 then
        rowLoop enc srcBits bpl bytesPerLine width nplanes pitch r (off + pitch)
          st1 s1 (writeBytes pix off (buf.take (min (toSizeT width) bpl)))
      else if srcBits = 24 then
        match deinterlaceRow buf (bpl : Int) bytesPerLine width nplanes pitch
            off pix with
        | none => .error .corruptData
        | some pix1 =>
          rowLoop enc srcBits bpl bytesPerLine width nplanes pitch r
            (off + pitch) st1 s1 pix1
      else
        rowLoop enc srcBits bpl bytesPerLine width nplanes pitch r (off + pitch)
          st1 s1 pix

/-- The 256-colour palette search (lines 256–262): read bytes until one
equals 12; at end of stream fall back to seeking 768 bytes before the
stream's end.  The fuel is instantiated with the remaining stream length,
which bounds the loop. -/
def markerScan : Nat → MemStream → MemStream
  | 0, s => seekEnd s (-768)
  | f + 1, s =>
    match readByte s with
    | none => seekEnd s (-768)
    | some (b, s1) => if b = 12 then s1 else markerScan f s1

/-- Exactly 256 RGB triples copied verbatim from 768 palette bytes (lines
268–272). -/
def paletteOfBytes (bs : List Nat) : List RGB :=
  (List.range 256).map (fun i =>
    ⟨bs.getD (i * 3) 0, bs.getD (i * 3 + 1) 0, bs.getD (i * 3 + 2) 0⟩)

/-- The `src_bits == 8` palette read (lines 251–272): scan for the marker,
then read 768 bytes as 256 RGB triples; a short read is `file truncated`. -/
def resolvePalette256 (s : MemStream) : Except DecodeError (List RGB × MemStream) :=
  let s1 := markerScan s.remaining s
  let r := readBytes s1 768
  if r.1.length = 768 then
    .ok (paletteOfBytes r.1, r.2)
  else
    .error .truncated

/-- The `src_bits < 8` palette (lines 274–278): `nc` triples taken from the
header's embedded colormap. -/
def headerPalette (hdr : PCXheader) (nc : Nat) : List RGB :=
  (List.range nc).map (fun i =>
    ⟨hdr.Colormap.getD (i * 3) 0, hdr.Colormap.getD (i * 3 + 1) 0,
      hdr.Colormap.getD (i * 3 + 2) 0⟩)

/-- Everything `IMG_LoadPCX_IO` does after a supported format is
classified (lines 149–280): create the surface, allocate the scanline
buffer, run the row loop, then resolve the palette for 8-bit output.
Returns the C locals `(surface, error)` and the stream as the call leaves
it; on error paths the returned stream carries the same data and the
epilogue's seek determines the final cursor. -/
def assemble (alloc : AllocOracle) (hdr : PCXheader) (width height : Int)
    (srcBits : Nat) (indexed : Bool) (bytesPP : Nat) (s128 : MemStream) :
    Option Surface × Option DecodeError × MemStream :=
  if alloc.surfaceOk = false then
    (none, none, s128)
  else
    let pitch := (width * (bytesPP : Int)).toNat
    let pixels := List.replicate (height.toNat * pitch) 0
    let bpl := toSizeT ((hdr.NPlanes : Int) * hdr.BytesPerLine)
    if alloc.bufOk = false then
      (none, some .outOfMemory, s128)
    else
      match rowLoop hdr.Encoding srcBits bpl hdr.BytesPerLine width hdr.NPlanes
          pitch height.toNat 0 ⟨0, 0⟩ s128 pixels with
      | .error e => (none, some e, s128)
      | .ok (pix, _, s2) =>
        if indexed then
          if alloc.paletteOk = false then
            (none, some .paletteFailure, s2)
          else
            let nc := min (2 ^ srcBits) 256
            if srcBits = 8 then
              match resolvePalette256 s2 with
              | .error e => (none, some e, s2)
              | .ok (pal, s3) =>
                (some ⟨width, height, bytesPP, pitch, pix, some pal⟩, none, s3)
            else
              (some ⟨width, height, bytesPP, pitch, pix,
                some (headerPalette hdr nc)⟩, none, s2)
        else
          (some ⟨width, height, bytesPP, pitch, pix, none⟩, none, s2)

/-- The main sequence of `IMG_LoadPCX_IO` before the `done:` epilogue
(lines 108–280): read and parse the header, classify the format, assemble
the surface.  Returns the C locals `(surface, error)` and the stream. -/
def loadBody (alloc : AllocOracle) (s : MemStream) :
    Option Surface × Option DecodeError × MemStream :=
  let r0 := readBytes s 128
  if r0.1.length = 128 then
    let hdr := parseHeader r0.1
    let width := hdr.Xmax - hdr.Xmin + 1
    let height := hdr.Ymax - hdr.Ymin + 1
    let srcBits := hdr.BitsPerPixel * hdr.NPlanes
    if (hdr.BitsPerPixel = 1 ∧ 1 ≤ hdr.NPlanes ∧ hdr.NPlanes ≤ 4) ∨
        (hdr.BitsPerPixel = 8 ∧ hdr.NPlanes = 1) then
      assemble alloc hdr width height srcBits true 1 r0.2
    else if hdr.BitsPerPixel = 8 ∧ hdr.NPlanes = 3 then
      assemble alloc hdr width height srcBits false 3 r0.2
    else
      (none, some .unsupportedFormat, r0.2)
  else
    (none, some .truncated, r0.2)

/-- The loader `IMG_LoadPCX_IO` (lines 89–293): null check, remember the cursor, run
the body; the `done:` epilogue (lines 282–292) seeks back to the
remembered cursor and discards the surface exactly when the `error`
variable is set. -/
def IMG_LoadPCX (alloc : AllocOracle) :
    Option MemStream → Option Surface × Option DecodeError × Option MemStream
  | none => (none, none, none)
  | some s =>
    match loadBody alloc s with
    | (_, some e, t) => (none, some e, some (seekSet t ((s.pos : Nat) : Int)))
    | (surf, none, t) => (surf, none, some t)

/-- Formalised from the spec's words (§4.4, Planar≤4bit), for comparison
with the code's expansion: the OR over planes `p0 ≤ p < p0 + r` of
`(bit <<< p)`, where the bit for plane `p` at column `c` is bit
`7 - c % 8` (most-significant first) of plane `p`'s byte `c / 8` — a
plane contributes only for columns covered by its `bytes_per_scanline`
bytes. -/
def specPlanarOr (buf : List Nat) (bytesPerLine : Int) (c : Nat) :
    Nat → Nat → Nat
  | _, 0 => 0
  | p0, r + 1 =>
    (if c / 8 < bytesPerLine.toNat then
      ((buf.getD (p0 * bytesPerLine.toNat + c / 8) 0 >>> (7 - c % 8)) &&& 1)
        <<< p0
     else 0) ||| specPlanarOr buf bytesPerLine c (p0 + 1) r

/-- Formalised from the spec's words (§4.4): the index value of pixel
column `c`, accumulated over all `nplanes` planes. -/
def specPlanarPixel (buf : List Nat) (bytesPerLine : Int) (c : Nat)
    (nplanes : Nat) : Nat :=
  specPlanarOr buf bytesPerLine c 0 nplanes

/-- Formalised from the spec's words (§4.4): the row after planar
reconstruction — every column `c < width` receives the OR of its per-plane
bits into the previously allocated byte, and columns at or beyond `width`
are untouched (padding bits are discarded, not written). -/
def specPlanarRow (buf : List Nat) (nplanes : Nat) (bytesPerLine width : Int)
    (pix : List Nat) : List Nat :=
  (List.range pix.length).map (fun (c : Nat) =>
    if (c : Int) < width then
      pix.getD c 0 ||| specPlanarPixel buf bytesPerLine c nplanes
    else pix.getD c 0)

/-- A 128-byte header block with manufacturer 10, version 5, the given
encoding, bits-per-pixel, bounding box `(0,0)`–`(xmax,ymax)`, plane count
and bytes-per-line, and all other bytes zero (test-input constructor). -/
def mkHeader (enc bpp xmax ymax nplanes bpline : Nat) : List Nat :=
  [10, 5, enc, bpp, 0, 0, 0, 0, xmax % 256, xmax / 256, ymax % 256, ymax / 256,
    0, 0, 0, 0] ++ List.replicate 48 0 ++
  [0, nplanes, bpline % 256, bpline / 256] ++ List.replicate 60 0

/-- All external allocations succeed. -/
def allocAll : AllocOracle := ⟨true, true, true⟩

example : rleFill ⟨0, 0⟩ ⟨[0xc3, 0x7f], 0⟩ 3 =
    some ([0x7f, 0x7f, 0x7f], ⟨0, 0x7f⟩, ⟨[0xc3, 0x7f], 2⟩) := by decide

example : rleFill ⟨0, 0⟩ ⟨[0xc0, 0x05, 0x07], 0⟩ 1 =
    some ([0x05], ⟨-1, 0x05⟩, ⟨[0xc0, 0x05, 0x07], 2⟩) := by decide

example : rleFill ⟨0, 0⟩ ⟨[0x11, 0x22, 0xc5, 0xaa, 0x33], 0⟩ 4 =
    some ([0x11, 0x22, 0xaa, 0xaa], ⟨3, 0xaa⟩, ⟨[0x11, 0x22, 0xc5, 0xaa, 0x33], 4⟩) := by
  decide

example : rleFill ⟨3, 0xaa⟩ ⟨[0x11, 0x22, 0xc5, 0xaa, 0x33], 4⟩ 4 =
    some ([0xaa, 0xaa, 0xaa, 0x33], ⟨0, 0x33⟩, ⟨[0x11, 0x22, 0xc5, 0xaa, 0x33], 5⟩) := by
  decide

/-- A nonzero counter emits the held byte and decrements, reading nothing. -/
theorem rleStep_emit (k : Int) (ch : Nat) (s : MemStream) (hk : ¬ (k = 0)) :
    rleStep ⟨k, ch⟩ s = some (ch, ⟨k - 1, ch⟩, s) := by
  simp [rleStep, hk]

/-- A zero counter facing a control byte `c ≥ 0xC0` reads the control byte
and the literal after it, emits the literal, and sets the counter to
`c - 0xC0 - 1`. -/
theorem rleStep_control (a c lit : Nat) (s : MemStream) (hc : 0xc0 ≤ c)
    (h1 : s.data[s.pos]? = some c)
    (h2 : s.data[s.pos + 1]? = some lit) :
    rleStep ⟨0, a⟩ s = some (lit, ⟨(c : Int) - 0xc0 - 1, lit⟩, ⟨s.data, s.pos + 2⟩) := by
  have hn : ¬ (c < 0xc0) := by omega
  simp [rleStep, readByte, h1, h2, hn]

/-- A zero counter facing a byte `c < 0xC0` emits that byte once. -/
theorem rleStep_literal (a c : Nat) (s : MemStream) (hc : c < 0xc0)
    (h1 : s.data[s.pos]? = some c) :
    rleStep ⟨0, a⟩ s = some (c, ⟨0, c⟩, ⟨s.data, s.pos + 1⟩) := by
  simp [rleStep, readByte, h1, hc]

/-- An active or negative counter emits `ch` on every step without reading
the stream: decoding `n` bytes from state `⟨k, ch⟩` with `n ≤ k` or `k < 0`
yields `n` copies of `ch`, state `⟨k - n, ch⟩`, and the untouched stream. -/
theorem rleFill_active (ch : Nat) (s : MemStream) (n : Nat) :
    ∀ k : Int, (n : Int) ≤ k ∨ k < 0 →
      rleFill ⟨k, ch⟩ s n = some (List.replicate n ch, ⟨k - n, ch⟩, s) := by
  induction n with
  | zero => intro k _; simp [rleFill]
  | succ n ih =>
    intro k h
    have hk0 : ¬ (k = 0) := by
      rcases h with h | h
      · have : (0 : Int) < (n : Int) + 1 := by positivity
        have : (0 : Int) < k := lt_of_lt_of_le (by push_cast at h ⊢; omega) le_rfl
        omega
      · omega
    have hcond : (n : Int) ≤ k - 1 ∨ k - 1 < 0 := by
      rcases h with h | h
      · left; push_cast at h; omega
      · right; omega
    rw [rleFill, rleStep_emit k ch s hk0]
    simp only
    rw [ih (k - 1) hcond]
    have harith : k - 1 - (n : Int) = k - ((n + 1 : Nat) : Int) := by push_cast; ring
    rw [harith, List.replicate_succ]

/-- Decoding splits at any intermediate quota boundary: producing `a + b`
bytes is producing `a` bytes and then `b` more from the carried state and
stream — row boundaries are invisible to the run-length decoder. -/
theorem rleFill_append (a b : Nat) : ∀ (st : RLE) (s : MemStream),
    rleFill st s (a + b) =
      match rleFill st s a with
      | none => none
      | some (xs, st1, s1) =>
        match rleFill st1 s1 b with
        | none => none
        | some (ys, st2, s2) => some (xs ++ ys, st2, s2) := by
  induction a with
  | zero =>
    intro st s
    simp only [Nat.zero_add, rleFill]
    cases h : rleFill st s b with
    | none => rfl
    | some r => simp
  | succ n ih =>
    intro st s
    have : n + 1 + b = (n + b) + 1 := by omega
    rw [this, rleFill, rleFill]
    cases h : rleStep st s with
    | none => rfl
    | some r =>
      obtain ⟨x, st1, s1⟩ := r
      simp only
      rw [ih st1 s1]
      cases h1 : rleFill st1 s1 n with
      | none => rfl
      | some r1 =>
        obtain ⟨xs, st2, s2⟩ := r1
        simp only
        cases h2 : rleFill st2 s2 b with
        | none => rfl
        | some r2 => simp

/-- A control byte `0xC0 + n` with `1 ≤ n` reads the following literal and
emits it `n` times, consuming exactly two stream bytes and ending with a
zero counter. -/
theorem rleFill_run (a lit : Nat) (n : Nat) (h1 : 1 ≤ n) (s : MemStream)
    (hc : s.data[s.pos]? = some (0xc0 + n))
    (hl : s.data[s.pos + 1]? = some lit) :
    rleFill ⟨0, a⟩ s n =
      some (List.replicate n lit, ⟨0, lit⟩, ⟨s.data, s.pos + 2⟩) := by
  cases n with
  | zero => omega
  | succ m =>
    rw [rleFill, rleStep_control a (0xc0 + (m + 1)) lit s (by omega) hc hl]
    simp only
    have hcount : ((0xc0 + (m + 1) : Nat) : Int) - 0xc0 - 1 = (m : Int) := by
      push_cast; ring
    rw [hcount, rleFill_active lit ⟨s.data, s.pos + 2⟩ m (m : Int) (Or.inl le_rfl)]
    simp [List.replicate_succ]

/-- A control byte exactly `0xC0` (count field 0) emits its literal once,
drives the counter to `-1`, and thereafter the literal is emitted for every
further requested byte with no stream reads: `m` requested bytes yield `m`
copies of the literal for every `m ≥ 1`. -/
theorem rleFill_zero_run (a lit : Nat) (m : Nat) (h1 : 1 ≤ m) (s : MemStream)
    (hc : s.data[s.pos]? = some 0xc0)
    (hl : s.data[s.pos + 1]? = some lit) :
    rleFill ⟨0, a⟩ s m =
      some (List.replicate m lit, ⟨-(m : Int), lit⟩, ⟨s.data, s.pos + 2⟩) := by
  cases m with
  | zero => omega
  | succ k =>
    rw [rleFill, rleStep_control a 0xc0 lit s le_rfl hc hl]
    simp only
    have hcount : ((0xc0 : Nat) : Int) - 0xc0 - 1 = -1 := by norm_num
    rw [hcount, rleFill_active lit ⟨s.data, s.pos + 2⟩ k (-1) (Or.inr (by norm_num))]
    have harith : (-1 : Int) - (k : Int) = -((k + 1 : Nat) : Int) := by push_cast; ring
    rw [harith, List.replicate_succ]

/-- Claim **C1** counterexample.  The claim reads the control byte `0xC0` as a run
of repeat count `n = 0`: its literal `0x05` should be emitted zero times and
the following byte `0x07` (< `0xC0`) should be the single byte produced.
The code instead emits the literal `0x05` (the loop body stores `ch` and
decrements `count` unconditionally after the control read), driving the
counter to `-1`; the first decoded byte is `0x05`, not `0x07`. -/
theorem C1_counterexample :
    rleFill ⟨0, 0⟩ ⟨[0xc0, 0x05, 0x07], 0⟩ 1 =
      some ([0x05], ⟨-1, 0x05⟩, ⟨[0xc0, 0x05, 0x07], 2⟩) ∧
    ¬ rleFill ⟨0, 0⟩ ⟨[0xc0, 0x05, 0x07], 0⟩ 1 =
      some ([0x07], ⟨0, 0x07⟩, ⟨[0xc0, 0x05, 0x07], 3⟩) := by decide

/-- Claim **C1** (amended).  A control byte `0xC0 + n` with `1 ≤ n ≤ 63` makes the
next stream byte a literal emitted exactly `n` times; a byte `< 0xC0` is
emitted once as its own value; the control byte exactly `0xC0` (count field
zero) does not emit its literal zero times — it emits it once, the counter
becomes negative, and the literal is then emitted for every further
requested byte of the session without another control-byte read; `0xC3`
followed by `0x7F` expands to exactly three bytes of `0x7F`. -/
theorem C1_rle_control_bytes (a n c lit : Nat) (s t : MemStream)
    (hn1 : 1 ≤ n) (hn63 : n ≤ 63)
    (hrc : s.data[s.pos]? = some (0xc0 + n)) (hrl : s.data[s.pos + 1]? = some lit)
    (hc : c < 0xc0) (htc : t.data[t.pos]? = some c) :
    rleFill ⟨0, a⟩ s n = some (List.replicate n lit, ⟨0, lit⟩, ⟨s.data, s.pos + 2⟩) ∧
    rleFill ⟨0, a⟩ t 1 = some ([c], ⟨0, c⟩, ⟨t.data, t.pos + 1⟩) ∧
    (∀ m : Nat, 1 ≤ m → ∀ (u : MemStream) (lit2 : Nat),
      u.data[u.pos]? = some 0xc0 → u.data[u.pos + 1]? = some lit2 →
      rleFill ⟨0, a⟩ u m =
        some (List.replicate m lit2, ⟨-(m : Int), lit2⟩, ⟨u.data, u.pos + 2⟩)) ∧
    rleFill ⟨0, 0⟩ ⟨[0xc3, 0x7f], 0⟩ 3 =
      some (List.replicate 3 0x7f, ⟨0, 0x7f⟩, ⟨[0xc3, 0x7f], 2⟩) := by
  refine ⟨rleFill_run a lit n hn1 s hrc hrl, ?_, ?_, by decide⟩
  · rw [rleFill, rleStep_literal a c t hc htc]
    simp [rleFill]
  · intro m hm u lit2 h1 h2
    exact rleFill_zero_run a lit2 m hm u h1 h2

theorem C1_rle_control_bytes_witness :
    rleFill ⟨0, 9⟩ ⟨[0xc3, 0x7f], 0⟩ 3 =
      some (List.replicate 3 0x7f, ⟨0, 0x7f⟩, ⟨[0xc3, 0x7f], 2⟩) :=
  (C1_rle_control_bytes 9 3 7 0x7f ⟨[0xc3, 0x7f], 0⟩ ⟨[7], 0⟩ (by decide) (by decide)
    (by decide) (by decide) (by decide) (by decide)).1

/-- Claim **C2**.  The run-length state persists across row boundaries: a run
still holding `k > 0` pending bytes at a row boundary emits those `k`
copies of the carried literal at the start of the next row without reading
the stream, and only then does decoding continue with a fresh (zero)
counter reading a new control byte; concretely, a count-5 run starting two
bytes before the end of a 4-byte row quota leaves 3 pending bytes, which
are emitted into the next row before the next control byte (`0x33`) is
read. -/
theorem C2_run_state_persists (k ch : Nat) (s : MemStream) (hk : 0 < k) :
    rleFill ⟨(k : Int), ch⟩ s k = some (List.replicate k ch, ⟨0, ch⟩, s) ∧
    (∀ b : Nat, rleFill ⟨(k : Int), ch⟩ s (k + b) =
      match rleFill ⟨0, ch⟩ s b with
      | none => none
      | some (ys, st2, s2) => some (List.replicate k ch ++ ys, st2, s2)) ∧
    rleFill ⟨0, 0⟩ ⟨[0x11, 0x22, 0xc5, 0xaa, 0x33], 0⟩ 4 =
      some ([0x11, 0x22, 0xaa, 0xaa], ⟨3, 0xaa⟩, ⟨[0x11, 0x22, 0xc5, 0xaa, 0x33], 4⟩) ∧
    rleFill ⟨3, 0xaa⟩ ⟨[0x11, 0x22, 0xc5, 0xaa, 0x33], 4⟩ 3 =
      some (List.replicate 3 0xaa, ⟨0, 0xaa⟩, ⟨[0x11, 0x22, 0xc5, 0xaa, 0x33], 4⟩) ∧
    rleFill ⟨3, 0xaa⟩ ⟨[0x11, 0x22, 0xc5, 0xaa, 0x33], 4⟩ 4 =
      some ([0xaa, 0xaa, 0xaa, 0x33], ⟨0, 0x33⟩, ⟨[0x11, 0x22, 0xc5, 0xaa, 0x33], 5⟩) := by
  have h1 : rleFill ⟨(k : Int), ch⟩ s k = some (List.replicate k ch, ⟨0, ch⟩, s) := by
    have h := rleFill_active ch s k (k : Int) (Or.inl le_rfl)
    rwa [sub_self] at h
  refine ⟨h1, ?_, by decide, by decide, by decide⟩
  intro b
  rw [rleFill_append k b ⟨(k : Int), ch⟩ s, h1]

/-- Seeking back to the remembered entry cursor after a bounded forward
read restores the stream exactly. -/
theorem seekSet_back (s : MemStream) (k : Nat) :
    seekSet ⟨s.data, s.pos + min k s.remaining⟩ ((s.pos : Nat) : Int) = s := by
  obtain ⟨d, p⟩ := s
  by_cases h : p ≤ d.length
  · simp only [seekSet]
    rw [if_pos ⟨by positivity, by exact_mod_cast h⟩]
    simp
  · have h0 : MemStream.remaining ⟨d, p⟩ = 0 := by
      simp only [MemStream.remaining]
      omega
    rw [h0]
    simp only [Nat.min_zero, Nat.add_zero, seekSet]
    rw [if_neg]
    intro hc
    exact h (by exact_mod_cast hc.2)

/-- Claim **C8**.  Probing is observably pure: `IMG_isPCX` hands back exactly the
stream it was given (cursor restored on match and non-match alike), a
stream with fewer than 128 bytes remaining yields `false` rather than an
error, and repeating the probe returns the same boolean on the same
stream. -/
theorem C8_probe_pure (s : MemStream) :
    (IMG_isPCX (some s)).2 = some s ∧
    (s.remaining < 128 → (IMG_isPCX (some s)).1 = false) ∧
    IMG_isPCX (IMG_isPCX (some s)).2 = IMG_isPCX (some s) := by
  have hback : (IMG_isPCX (some s)).2 = some s := by
    simp only [IMG_isPCX, readBytes]
    exact congrArg some (seekSet_back s 128)
  refine ⟨hback, ?_, by rw [hback]⟩
  intro hshort
  have hlen : ((s.data.drop s.pos).take (min 128 s.remaining)).length =
      min 128 s.remaining := by
    simp only [List.length_take, List.length_drop, MemStream.remaining]
    omega
  have hne : ¬ ((s.data.drop s.pos).take (min 128 s.remaining)).length = 128 := by
    rw [hlen]
    omega
  simp only [IMG_isPCX, readBytes]
  rw [if_neg hne]

theorem C8_probe_pure_witness :
    (IMG_isPCX (some ⟨[10, 5], 0⟩)).2 = some ⟨[10, 5], 0⟩ ∧
    (IMG_isPCX (some ⟨[10, 5], 0⟩)).1 = false :=
  ⟨(C8_probe_pure ⟨[10, 5], 0⟩).1, (C8_probe_pure ⟨[10, 5], 0⟩).2.1 (by decide)⟩

/-- Claim **C10**.  A null stream handle makes the probe return `false` and the
loader return no surface (the failure outcome whose message was set by the
stream's own constructor), each immediately and with no read, seek or any
other effect on any stream. -/
theorem C10_null_stream (alloc : AllocOracle) :
    IMG_isPCX none = (false, none) ∧
    IMG_LoadPCX alloc none = (none, none, none) :=
  ⟨rfl, rfl⟩

theorem C10_null_stream_witness :
    IMG_isPCX none = (false, none) ∧
    IMG_LoadPCX allocAll none = (none, none, none) :=
  C10_null_stream allocAll

theorem C2_run_state_persists_witness :
    rleFill ⟨3, 0xaa⟩ ⟨[0x11, 0x22, 0xc5, 0xaa, 0x33], 4⟩ 3 =
      some (List.replicate 3 0xaa, ⟨0, 0xaa⟩, ⟨[0x11, 0x22, 0xc5, 0xaa, 0x33], 4⟩) :=
  (C2_run_state_persists 3 0xaa ⟨[0x11, 0x22, 0xc5, 0xaa, 0x33], 4⟩ (by decide)).2.2.2.1

/-- Reading one byte leaves the underlying byte sequence unchanged. -/
theorem readByte_data (s : MemStream) (b : Nat) (s1 : MemStream)
    (h : readByte s = some (b, s1)) : s1.data = s.data := by
  rw [readByte] at h
  cases hg : s.data[s.pos]? with
  | none => rw [hg] at h; exact Option.noConfusion h
  | some v =>
    rw [hg] at h
    simp only [Option.some.injEq, Prod.mk.injEq] at h
    rw [← h.2]

/-- One RLE step leaves the underlying byte sequence unchanged. -/
theorem rleStep_data (st : RLE) (s : MemStream) (b : Nat) (st1 : RLE)
    (s1 : MemStream) (h : rleStep st s = some (b, st1, s1)) : s1.data = s.data := by
  rw [rleStep] at h
  by_cases h0 : st.count = 0
  · rw [if_pos h0] at h
    cases hr : readByte s with
    | none => rw [hr] at h; exact Option.noConfusion h
    | some p =>
      obtain ⟨c, sc⟩ := p
      rw [hr] at h
      simp only at h
      have hcd := readByte_data s c sc hr
      by_cases hlt : c < 0xc0
      · rw [if_pos hlt] at h
        simp only [Option.some.injEq, Prod.mk.injEq] at h
        rw [← h.2.2]
        exact hcd
      · rw [if_neg hlt] at h
        cases hr2 : readByte sc with
        | none => rw [hr2] at h; exact Option.noConfusion h
        | some p2 =>
          obtain ⟨lit, s2⟩ := p2
          rw [hr2] at h
          simp only [Option.some.injEq, Prod.mk.injEq] at h
          rw [← h.2.2, readByte_data sc lit s2 hr2, hcd]
  · rw [if_neg h0] at h
    simp only [Option.some.injEq, Prod.mk.injEq] at h
    rw [← h.2.2]

/-- The RLE row fill leaves the underlying byte sequence unchanged. -/
theorem rleFill_data (n : Nat) : ∀ (st : RLE) (s : MemStream) (bs : List Nat)
    (st1 : RLE) (s1 : MemStream), rleFill st s n = some (bs, st1, s1) →
    s1.data = s.data := by
  induction n with
  | zero =>
    intro st s bs st1 s1 h
    rw [rleFill] at h
    simp only [Option.some.injEq, Prod.mk.injEq] at h
    rw [← h.2.2]
  | succ n ih =>
    intro st s bs st1 s1 h
    rw [rleFill] at h
    cases hr : rleStep st s with
    | none => rw [hr] at h; exact Option.noConfusion h
    | some p =>
      obtain ⟨b, stm, sm⟩ := p
      rw [hr] at h
      simp only at h
      cases hf : rleFill stm sm n with
      | none => rw [hf] at h; exact Option.noConfusion h
      | some q =>
        obtain ⟨ys, st2, s2⟩ := q
        rw [hf] at h
        simp only [Option.some.injEq, Prod.mk.injEq] at h
        rw [← h.2.2, ih stm sm ys st2 s2 hf, rleStep_data st s b stm sm hr]

/-- A row's scanline fill leaves the underlying byte sequence unchanged. -/
theorem fillRowBuf_data (enc bpl : Nat) (st : RLE) (s : MemStream)
    (bs : List Nat) (st1 : RLE) (s1 : MemStream)
    (h : fillRowBuf enc bpl st s = some (bs, st1, s1)) : s1.data = s.data := by
  rw [fillRowBuf] at h
  by_cases he : enc = 0
  · rw [if_pos he] at h
    simp only at h
    by_cases hl : ((readBytes s bpl).1).length = bpl
    · rw [if_pos hl] at h
      simp only [Option.some.injEq, Prod.mk.injEq] at h
      rw [← h.2.2]
      rfl
    · rw [if_neg hl] at h
      exact Option.noConfusion h
  · rw [if_neg he] at h
    exact rleFill_data bpl st s bs st1 s1 h

/-- The row loop leaves the underlying byte sequence unchanged. -/
theorem rowLoop_data (enc srcBits bpl : Nat) (bytesPerLine width : Int)
    (nplanes pitch : Nat) (r : Nat) :
    ∀ (off : Nat) (st : RLE) (s : MemStream) (pix pix1 : List Nat) (st1 : RLE)
      (s1 : MemStream),
      rowLoop enc srcBits bpl bytesPerLine width nplanes pitch r off st s pix =
        .ok (pix1, st1, s1) → s1.data = s.data := by
  induction r with
  | zero =>
    intro off st s pix pix1 st1 s1 h
    rw [rowLoop] at h
    simp only [Except.ok.injEq, Prod.mk.injEq] at h
    rw [← h.2.2]
  | succ r ih =>
    intro off st s pix pix1 st1 s1 h
    rw [rowLoop] at h
    cases hf : fillRowBuf enc bpl st s with
    | none => rw [hf] at h; exact Except.noConfusion h
    | some p =>
      obtain ⟨buf, stm, sm⟩ := p
      rw [hf] at h
      simp only at h
      have hmd := fillRowBuf_data enc bpl st s buf stm sm hf
      by_cases h4 : srcBits ≤ 4
      · rw [if_pos h4] at h
        rw [ih _ _ _ _ _ _ _ h, hmd]
      · rw [if_neg h4] at h
        by_cases h8 : srcBits = 8
        · rw [if_pos h8] at h
          rw [ih _ _ _ _ _ _ _ h, hmd]
        · rw [if_neg h8] at h
          by_cases h24 : srcBits = 24
          · rw [if_pos h24] at h
            cases hd : deinterlaceRow buf (bpl : Int) bytesPerLine width nplanes
                pitch off pix with
            | none => rw [hd] at h; exact Except.noConfusion h
            | some pixd =>
              rw [hd] at h
              simp only at h
              rw [ih _ _ _ _ _ _ _ h, hmd]
          · rw [if_neg h24] at h
            rw [ih _ _ _ _ _ _ _ h, hmd]

/-- Seeking leaves the underlying byte sequence unchanged. -/
theorem seekEnd_data (s : MemStream) (o : Int) : (seekEnd s o).data = s.data := by
  rw [seekEnd]
  split <;> rfl

/-- The palette marker scan leaves the underlying byte sequence unchanged. -/
theorem markerScan_data (f : Nat) : ∀ s : MemStream,
    (markerScan f s).data = s.data := by
  induction f with
  | zero => intro s; exact seekEnd_data s (-768)
  | succ f ih =>
    intro s
    rw [markerScan]
    cases hr : readByte s with
    | none => exact seekEnd_data s (-768)
    | some p =>
      obtain ⟨b, s1⟩ := p
      simp only
      have hd := readByte_data s b s1 hr
      by_cases hb : b = 12
      · rw [if_pos hb]; exact hd
      · rw [if_neg hb, ih s1, hd]

/-- The 256-colour palette read leaves the underlying byte sequence
unchanged. -/
theorem resolvePalette256_data (s : MemStream) (pal : List RGB) (s1 : MemStream)
    (h : resolvePalette256 s = .ok (pal, s1)) : s1.data = s.data := by
  rw [resolvePalette256] at h
  by_cases hl : ((readBytes (markerScan s.remaining s) 768).1).length = 768
  · rw [if_pos hl] at h
    simp only [Except.ok.injEq, Prod.mk.injEq] at h
    rw [← h.2]
    exact markerScan_data s.remaining s
  · rw [if_neg hl] at h
    exact Except.noConfusion h

/-- The assembler leaves the underlying byte sequence unchanged. -/
theorem assemble_data (alloc : AllocOracle) (hdr : PCXheader)
    (width height : Int) (srcBits : Nat) (indexed : Bool) (bytesPP : Nat)
    (s128 : MemStream) :
    (assemble alloc hdr width height srcBits indexed bytesPP s128).2.2.data =
      s128.data := by
  rw [assemble]
  by_cases hs : alloc.surfaceOk = false
  · rw [if_pos hs]
  · rw [if_neg hs]
    simp only
    by_cases hb : alloc.bufOk = false
    · rw [if_pos hb]
    · rw [if_neg hb]
      cases hrow : rowLoop hdr.Encoding srcBits
          (toSizeT ((hdr.NPlanes : Int) * hdr.BytesPerLine)) hdr.BytesPerLine
          width hdr.NPlanes ((width * (bytesPP : Int)).toNat) height.toNat 0
          ⟨0, 0⟩ s128
          (List.replicate (height.toNat * (width * (bytesPP : Int)).toNat) 0) with
      | error e => rfl
      | ok p =>
        obtain ⟨pix, stf, s2⟩ := p
        have h2 := rowLoop_data hdr.Encoding srcBits
          (toSizeT ((hdr.NPlanes : Int) * hdr.BytesPerLine)) hdr.BytesPerLine
          width hdr.NPlanes ((width * (bytesPP : Int)).toNat) height.toNat 0
          ⟨0, 0⟩ s128 _ pix stf s2 hrow
        cases indexed with
        | false => simpa using h2
        | true =>
          simp only
          by_cases hp : alloc.paletteOk = false
          · rw [if_pos hp]; exact h2
          · rw [if_neg hp]
            by_cases h8 : srcBits = 8
            · rw [if_pos h8]
              cases hres : resolvePalette256 s2 with
              | error e => exact h2
              | ok q =>
                obtain ⟨pal, s3⟩ := q
                rw [if_pos trivial]
                simp only
                rw [resolvePalette256_data s2 pal s3 hres]
                exact h2
            · rw [if_neg h8]
              exact h2

/-- The body of the loader leaves the underlying byte sequence unchanged. -/
theorem loadBody_data (alloc : AllocOracle) (s : MemStream) :
    (loadBody alloc s).2.2.data = s.data := by
  rw [loadBody]
  by_cases hl : ((readBytes s 128).1).length = 128
  · rw [if_pos hl]
    simp only
    split
    · exact assemble_data alloc _ _ _ _ _ _ _
    · split
      · exact assemble_data alloc _ _ _ _ _ _ _
      · rfl
  · rw [if_neg hl]
    rfl

/-- If the carried stream holds the same bytes as the entry stream and the
entry cursor is in range, seeking back to the entry position restores the
entry stream exactly. -/
theorem seekSet_restore (t s : MemStream) (hd : t.data = s.data)
    (hp : s.pos ≤ s.data.length) : seekSet t ((s.pos : Nat) : Int) = s := by
  rw [seekSet, hd]
  rw [if_pos ⟨by positivity, by exact_mod_cast hp⟩]
  simp

/-- When the entry cursor is already past the end of the data, the loader
body fails with `truncated` on the header read and hands back the entry
stream unmoved. -/
theorem loadBody_overrun (alloc : AllocOracle) (s : MemStream)
    (hp : s.data.length < s.pos) :
    loadBody alloc s = (none, some .truncated, s) := by
  have hrem : s.remaining = 0 := by
    simp only [MemStream.remaining]
    omega
  simp [loadBody, readBytes, hrem]

/-- Claim **C3** (amended).  Whenever the loader fails with one of its own error
conditions (truncated header, row data or palette; unsupported format;
corrupt data; scanline-buffer or palette allocation failure), the `done:`
epilogue seeks the cursor back to the entry position — the returned stream
is exactly the entry stream — and no surface (in particular no partial
raster) is returned.  The exception forced by the counterexample is the
surface-allocation failure path, on which the C `error` variable is never
set: that path returns no surface but leaves the cursor just past the
128-byte header. -/
theorem C3_error_restores (alloc : AllocOracle) (s : MemStream) (e : DecodeError)
    (h : (IMG_LoadPCX alloc (some s)).2.1 = some e) :
    (IMG_LoadPCX alloc (some s)).2.2 = some s ∧
    (IMG_LoadPCX alloc (some s)).1 = none := by
  have hd := loadBody_data alloc s
  rcases hb : loadBody alloc s with ⟨surf, err, t⟩
  rw [hb] at hd
  cases err with
  | none =>
    rw [IMG_LoadPCX, hb] at h
    exact Option.noConfusion h
  | some e1 =>
    rw [IMG_LoadPCX, hb]
    refine ⟨?_, rfl⟩
    show some (seekSet t ((s.pos : Nat) : Int)) = some s
    by_cases hp : s.pos ≤ s.data.length
    · rw [seekSet_restore t s hd hp]
    · have hov := loadBody_overrun alloc s (by omega)
      rw [hov] at hb
      simp only [Prod.mk.injEq] at hb
      have hneg : ¬ (0 ≤ ((s.pos : Nat) : Int) ∧
          ((s.pos : Nat) : Int) ≤ ((s.data.length : Nat) : Int)) := by
        intro hc
        exact hp (by exact_mod_cast hc.2)
      rw [← hb.2.2, seekSet, if_neg hneg]

theorem C3_error_restores_witness :
    (IMG_LoadPCX allocAll (some ⟨[1, 2, 3], 0⟩)).2.2 = some ⟨[1, 2, 3], 0⟩ ∧
    (IMG_LoadPCX allocAll (some ⟨[1, 2, 3], 0⟩)).1 = none :=
  C3_error_restores allocAll ⟨[1, 2, 3], 0⟩ .truncated (by decide)

set_option maxRecDepth 8192 in
/-- Claim **C3** counterexample.  A failing decode that does not restore the
cursor: with a valid 8-bit header but a failing surface allocation
(`SDL_CreateSurface` returning null, an allocation-failure outcome the
claim covers), the C `error` variable is never set, so the `done:`
epilogue performs no seek — the call fails with no surface, yet the cursor
is left 128 bytes past the entry position instead of being restored. -/
theorem C3_counterexample :
    IMG_LoadPCX ⟨false, true, true⟩ (some ⟨mkHeader 0 8 1 0 1 2, 0⟩) =
      (none, none, some ⟨mkHeader 0 8 1 0 1 2, 128⟩) ∧
    (128 : Nat) ≠ 0 := by decide

/-- The 256-colour palette read can only fail as `truncated`. -/
theorem resolvePalette256_err (s : MemStream) (e : DecodeError)
    (h : resolvePalette256 s = .error e) : e = .truncated := by
  rw [resolvePalette256] at h
  by_cases hl : ((readBytes (markerScan s.remaining s) 768).1).length = 768
  · rw [if_pos hl] at h
    exact Except.noConfusion h
  · rw [if_neg hl] at h
    simp only [Except.error.injEq] at h
    exact h.symm

/-- The row loop only ever reports `truncated` or `corruptData`. -/
theorem rowLoop_err (enc srcBits bpl : Nat) (bytesPerLine width : Int)
    (nplanes pitch : Nat) (r : Nat) :
    ∀ (off : Nat) (st : RLE) (s : MemStream) (pix : List Nat) (e : DecodeError),
      rowLoop enc srcBits bpl bytesPerLine width nplanes pitch r off st s pix =
        .error e → e = .truncated ∨ e = .corruptData := by
  induction r with
  | zero =>
    intro off st s pix e h
    rw [rowLoop] at h
    exact Except.noConfusion h
  | succ r ih =>
    intro off st s pix e h
    rw [rowLoop] at h
    cases hf : fillRowBuf enc bpl st s with
    | none =>
      rw [hf] at h
      simp only [Except.error.injEq] at h
      exact Or.inl h.symm
    | some p =>
      obtain ⟨buf, stm, sm⟩ := p
      rw [hf] at h
      simp only at h
      by_cases h4 : srcBits ≤ 4
      · rw [if_pos h4] at h
        exact ih _ _ _ _ _ h
      · rw [if_neg h4] at h
        by_cases h8 : srcBits = 8
        · rw [if_pos h8] at h
          exact ih _ _ _ _ _ h
        · rw [if_neg h8] at h
          by_cases h24 : srcBits = 24
          · rw [if_pos h24] at h
            cases hd : deinterlaceRow buf (bpl : Int) bytesPerLine width nplanes
                pitch off pix with
            | none =>
              rw [hd] at h
              simp only [Except.error.injEq] at h
              exact Or.inr h.symm
            | some pixd =>
              rw [hd] at h
              simp only at h
              exact ih _ _ _ _ _ h
          · rw [if_neg h24] at h
            exact ih _ _ _ _ _ h

/-- The assembler never reports `unsupportedFormat`: the format check happens
before it runs, and no later stage produces that error. -/
theorem assemble_err (alloc : AllocOracle) (hdr : PCXheader) (width height : Int)
    (srcBits : Nat) (indexed : Bool) (bytesPP : Nat) (s128 : MemStream) :
    (assemble alloc hdr width height srcBits indexed bytesPP s128).2.1 ≠
      some .unsupportedFormat := by
  rw [assemble]
  by_cases hs : alloc.surfaceOk = false
  · rw [if_pos hs]
    simp
  · rw [if_neg hs]
    simp only
    by_cases hb : alloc.bufOk = false
    · rw [if_pos hb]
      simp
    · rw [if_neg hb]
      cases hrow : rowLoop hdr.Encoding srcBits
          (toSizeT ((hdr.NPlanes : Int) * hdr.BytesPerLine)) hdr.BytesPerLine
          width hdr.NPlanes ((width * (bytesPP : Int)).toNat) height.toNat 0
          ⟨0, 0⟩ s128
          (List.replicate (height.toNat * (width * (bytesPP : Int)).toNat) 0) with
      | error e =>
        have he := rowLoop_err hdr.Encoding srcBits
          (toSizeT ((hdr.NPlanes : Int) * hdr.BytesPerLine)) hdr.BytesPerLine
          width hdr.NPlanes ((width * (bytesPP : Int)).toNat) height.toNat 0
          ⟨0, 0⟩ s128 _ e hrow
        intro hc
        simp only [Option.some.injEq] at hc
        rcases he with he | he <;> rw [he] at hc <;> exact DecodeError.noConfusion hc
      | ok p =>
        obtain ⟨pix, stf, s2⟩ := p
        cases indexed with
        | false => simp
        | true =>
          simp only
          by_cases hp : alloc.paletteOk = false
          · rw [if_pos hp]
            simp
          · rw [if_neg hp]
            by_cases h8 : srcBits = 8
            · rw [if_pos h8]
              cases hres : resolvePalette256 s2 with
              | error e =>
                have he := resolvePalette256_err s2 e hres
                rw [he]
                simp
              | ok q =>
                obtain ⟨pal, s3⟩ := q
                simp
            · rw [if_neg h8]
              simp

/-- The `done:` epilogue neither changes nor clears the `error` value. -/
theorem loadErr_pass (alloc : AllocOracle) (s : MemStream) :
    (IMG_LoadPCX alloc (some s)).2.1 = (loadBody alloc s).2.1 := by
  rcases hb : loadBody alloc s with ⟨surf, err, t⟩
  cases err <;> rw [IMG_LoadPCX, hb]

/-- When at least `n` bytes remain, a read of `n` bytes returns exactly the
next `n` bytes and advances the cursor by `n`. -/
theorem readBytes_full (s : MemStream) (n : Nat) (h : n ≤ s.remaining) :
    ((readBytes s n).1).length = n ∧ (readBytes s n).2 = ⟨s.data, s.pos + n⟩ ∧
    (readBytes s n).1 = (s.data.drop s.pos).take n := by
  have hmin : min n s.remaining = n := Nat.min_eq_left h
  have hrem : s.remaining = s.data.length - s.pos := rfl
  refine ⟨?_, ?_, ?_⟩
  · simp only [readBytes, hmin, List.length_take, List.length_drop]
    omega
  · simp only [readBytes, hmin]
  · simp only [readBytes, hmin]

/-- The loader reports `unsupportedFormat` exactly for parsed headers whose
(bits-per-pixel, plane-count) pair is outside the three supported
combinations. -/
theorem unsupported_iff (alloc : AllocOracle) (s : MemStream)
    (h128 : 128 ≤ s.remaining) :
    (IMG_LoadPCX alloc (some s)).2.1 = some .unsupportedFormat ↔
      ¬ (((parseHeader ((s.data.drop s.pos).take 128)).BitsPerPixel = 1 ∧
            1 ≤ (parseHeader ((s.data.drop s.pos).take 128)).NPlanes ∧
            (parseHeader ((s.data.drop s.pos).take 128)).NPlanes ≤ 4) ∨
          ((parseHeader ((s.data.drop s.pos).take 128)).BitsPerPixel = 8 ∧
            (parseHeader ((s.data.drop s.pos).take 128)).NPlanes = 1) ∨
          ((parseHeader ((s.data.drop s.pos).take 128)).BitsPerPixel = 8 ∧
            (parseHeader ((s.data.drop s.pos).take 128)).NPlanes = 3)) := by
  obtain ⟨hlen, hadv, hbytes⟩ := readBytes_full s 128 h128
  rw [loadErr_pass, loadBody, if_pos hlen, hbytes]
  by_cases hc12 : ((parseHeader ((s.data.drop s.pos).take 128)).BitsPerPixel = 1 ∧
      1 ≤ (parseHeader ((s.data.drop s.pos).take 128)).NPlanes ∧
      (parseHeader ((s.data.drop s.pos).take 128)).NPlanes ≤ 4) ∨
      ((parseHeader ((s.data.drop s.pos).take 128)).BitsPerPixel = 8 ∧
      (parseHeader ((s.data.drop s.pos).take 128)).NPlanes = 1)
  · rw [if_pos hc12]
    constructor
    · intro hcontra
      exact absurd hcontra (assemble_err alloc _ _ _ _ _ _ _)
    · intro hcontra
      exact absurd (by tauto) hcontra
  · rw [if_neg hc12]
    by_cases hc3 : (parseHeader ((s.data.drop s.pos).take 128)).BitsPerPixel = 8 ∧
        (parseHeader ((s.data.drop s.pos).take 128)).NPlanes = 3
    · rw [if_pos hc3]
      constructor
      · intro hcontra
        exact absurd hcontra (assemble_err alloc _ _ _ _ _ _ _)
      · intro hcontra
        exact absurd (by tauto) hcontra
    · rw [if_neg hc3]
      constructor
      · intro _
        tauto
      · intro _
        rfl

set_option maxRecDepth 8192 in
/-- Claim **C6**.  For a stream holding a full 128-byte header, the loader fails
with `unsupportedFormat` if and only if the header's
(bits-per-pixel, plane-count) pair is outside the three supported
combinations — bits 1 with 1–4 planes, bits 8 with 1 plane, bits 8 with 3
planes; in particular bits-per-pixel 2 with 1 plane is rejected as
`unsupportedFormat` (with the cursor restored). -/
theorem C6_unsupported_combinations (alloc : AllocOracle) (s : MemStream)
    (h128 : 128 ≤ s.remaining) :
    ((IMG_LoadPCX alloc (some s)).2.1 = some .unsupportedFormat ↔
      ¬ (((parseHeader ((s.data.drop s.pos).take 128)).BitsPerPixel = 1 ∧
            1 ≤ (parseHeader ((s.data.drop s.pos).take 128)).NPlanes ∧
            (parseHeader ((s.data.drop s.pos).take 128)).NPlanes ≤ 4) ∨
          ((parseHeader ((s.data.drop s.pos).take 128)).BitsPerPixel = 8 ∧
            (parseHeader ((s.data.drop s.pos).take 128)).NPlanes = 1) ∨
          ((parseHeader ((s.data.drop s.pos).take 128)).BitsPerPixel = 8 ∧
            (parseHeader ((s.data.drop s.pos).take 128)).NPlanes = 3))) ∧
    IMG_LoadPCX allocAll (some ⟨mkHeader 1 2 1 0 1 1, 0⟩) =
      (none, some .unsupportedFormat, some ⟨mkHeader 1 2 1 0 1 1, 0⟩) :=
  ⟨unsupported_iff alloc s h128, by decide⟩

set_option maxRecDepth 8192 in
theorem C6_unsupported_combinations_witness :
    (IMG_LoadPCX allocAll (some ⟨mkHeader 1 2 1 0 1 1, 0⟩)).2.1 =
      some DecodeError.unsupportedFormat :=
  (C6_unsupported_combinations allocAll ⟨mkHeader 1 2 1 0 1 1, 0⟩
    (by decide)).1.mpr (by decide)

/-- A header-slice byte other than the one overwritten is unchanged when
a single stream byte is replaced. -/
theorem slice_getD_set_ne (d : List Nat) (p v i j : Nat) (hne : j ≠ i)
    (hj : j < 128) :
    (((d.set (p + i) v).drop p).take 128).getD j 0 =
      ((d.drop p).take 128).getD j 0 := by
  rw [List.getD_eq_getElem?_getD, List.getD_eq_getElem?_getD,
    List.getElem?_take, List.getElem?_take, if_pos hj, if_pos hj,
    List.getElem?_drop, List.getElem?_drop,
    List.getElem?_set_ne (show p + i ≠ p + j by omega)]

/-- Overwriting the encoding byte (offset 2) leaves the parsed
bits-per-pixel and plane-count fields unchanged. -/
theorem parseHeader_set_enc (d : List Nat) (p v : Nat) :
    (parseHeader (((d.set (p + 2) v).drop p).take 128)).BitsPerPixel =
      (parseHeader ((d.drop p).take 128)).BitsPerPixel ∧
    (parseHeader (((d.set (p + 2) v).drop p).take 128)).NPlanes =
      (parseHeader ((d.drop p).take 128)).NPlanes :=
  ⟨slice_getD_set_ne d p v 2 3 (by omega) (by omega),
   slice_getD_set_ne d p v 2 65 (by omega) (by omega)⟩

set_option maxRecDepth 8192 in
/-- Claim **C9**.  The encoding field never causes a rejection: any nonzero
encoding value selects the run-length row decoder (only the value 0 is the
raw layout), the `unsupportedFormat` outcome is unchanged when the
header's encoding byte (offset 2) is overwritten with any value, and a
concrete stream with encoding 5 decodes to the same surface as the same
stream with encoding 1. -/
theorem C9_encoding_field (enc bpl : Nat) (st : RLE) (s t : MemStream)
    (alloc : AllocOracle) (v : Nat) (henc : ¬ enc = 0)
    (h128 : 128 ≤ t.remaining) :
    fillRowBuf enc bpl st s = rleFill st s bpl ∧
    ((IMG_LoadPCX alloc (some t)).2.1 = some .unsupportedFormat ↔
      (IMG_LoadPCX alloc
        (some ⟨t.data.set (t.pos + 2) v, t.pos⟩)).2.1 =
          some .unsupportedFormat) ∧
    (IMG_LoadPCX allocAll
        (some ⟨mkHeader 5 1 7 0 2 1 ++ [0xc2, 0x80], 0⟩)).1 =
      (IMG_LoadPCX allocAll
        (some ⟨mkHeader 1 1 7 0 2 1 ++ [0xc2, 0x80], 0⟩)).1 ∧
    ((IMG_LoadPCX allocAll
        (some ⟨mkHeader 5 1 7 0 2 1 ++ [0xc2, 0x80], 0⟩)).1).isSome = true := by
  refine ⟨by rw [fillRowBuf, if_neg henc], ?_, by decide, by decide⟩
  have h128m : 128 ≤ MemStream.remaining ⟨t.data.set (t.pos + 2) v, t.pos⟩ := by
    simp only [MemStream.remaining, List.length_set]
    exact h128
  rw [unsupported_iff alloc t h128, unsupported_iff alloc _ h128m]
  have hb := (parseHeader_set_enc t.data t.pos v).1
  have hn := (parseHeader_set_enc t.data t.pos v).2
  simp only at hb hn ⊢
  rw [hb, hn]

set_option maxRecDepth 8192 in
theorem C9_encoding_field_witness :
    fillRowBuf 5 2 ⟨0, 0⟩ ⟨[], 0⟩ = rleFill ⟨0, 0⟩ ⟨[], 0⟩ 2 :=
  (C9_encoding_field 5 2 ⟨0, 0⟩ ⟨[], 0⟩ ⟨mkHeader 1 2 1 0 1 1, 0⟩ allocAll 0
    (by decide) (by decide)).1

/-- If the pixel loop of the de-interlace succeeds, the bounds check of
every iteration held: each source position and destination offset it
touched was strictly inside the buffer and the row. -/
theorem deintX_ok_bounds (buf : List Nat) (bpl base : Int)
    (nplanes pitch off : Nat) :
    ∀ (r x0 dst0 : Nat) (pix pix1 : List Nat),
      deintX buf bpl base nplanes pitch off r x0 dst0 pix = some pix1 →
      ∀ i : Nat, i < r →
        base + ((x0 + i : Nat) : Int) < bpl ∧ dst0 + nplanes * i < pitch := by
  intro r
  induction r with
  | zero =>
    intro x0 dst0 pix pix1 h i hi
    exact absurd hi (Nat.not_lt_zero i)
  | succ r ih =>
    intro x0 dst0 pix pix1 h i hi
    rw [deintX] at h
    by_cases hc : bpl ≤ base + (x0 : Int) ∨ pitch ≤ dst0
    · rw [if_pos hc] at h
      exact Option.noConfusion h
    · rw [if_neg hc] at h
      push_neg at hc
      cases i with
      | zero =>
        constructor
        · have h1 := hc.1
          push_cast
          push_cast at h1
          omega
        · have h2 := hc.2
          omega
      | succ i =>
        have hrec := ih (x0 + 1) (dst0 + nplanes) _ pix1 h i (by omega)
        constructor
        · have h1 := hrec.1
          push_cast at h1 ⊢
          omega
        · have h2 := hrec.2
          rw [Nat.mul_succ]
          omega

/-- If the plane loop of the de-interlace succeeds, the bounds check of
every (plane, pixel) iteration held. -/
theorem deintPlanes_ok_bounds (buf : List Nat) (bpl bytesPerLine width : Int)
    (nplanes pitch off : Nat) :
    ∀ (r p0 : Nat) (pix pix1 : List Nat),
      deintPlanes buf bpl bytesPerLine width nplanes pitch off r p0 pix =
        some pix1 →
      ∀ j x : Nat, j < r → x < width.toNat →
        ((p0 + j : Nat) : Int) * bytesPerLine + (x : Int) < bpl ∧
        (p0 + j) + nplanes * x < pitch := by
  intro r
  induction r with
  | zero =>
    intro p0 pix pix1 h j x hj hx
    exact absurd hj (Nat.not_lt_zero j)
  | succ r ih =>
    intro p0 pix pix1 h j x hj hx
    rw [deintPlanes] at h
    cases hdx : deintX buf bpl ((p0 : Int) * bytesPerLine) nplanes pitch off
        width.toNat 0 p0 pix with
    | none =>
      rw [hdx] at h
      exact Option.noConfusion h
    | some pixm =>
      rw [hdx] at h
      simp only at h
      cases j with
      | zero =>
        have hb := deintX_ok_bounds buf bpl ((p0 : Int) * bytesPerLine) nplanes
          pitch off width.toNat 0 p0 pix pixm hdx x hx
        constructor
        · simpa using hb.1
        · simpa using hb.2
      | succ j =>
        have hrec := ih (p0 + 1) pixm pix1 h j x (by omega) hx
        have hrw : p0 + 1 + j = p0 + (j + 1) := by omega
        rw [hrw] at hrec
        exact hrec

set_option maxRecDepth 8192 in
/-- Claim **C4**.  In the 3-plane RGB24 de-interlace, a bounds check precedes
every write: when the de-interlace of a row succeeds, every source read
position `p·bytes_per_line + x` was inside the scanline buffer and every
destination offset `p + 3x` inside the row's pitch; a header combination
with `bytes_per_line < width` (the malformed case) always makes the
de-interlace fail out-of-bounds rather than access out of range, and a
concrete such stream makes the whole decode fail with `corruptData` and a
restored cursor. -/
theorem C4_deinterlace_bounds (buf pix pix1 : List Nat)
    (bpl bytesPerLine width : Int) (pitch off : Nat) :
    (deinterlaceRow buf bpl bytesPerLine width 3 pitch off pix = some pix1 →
      ∀ p x : Nat, p < 3 → x < width.toNat →
        (p : Int) * bytesPerLine + (x : Int) < bpl ∧ p + 3 * x < pitch) ∧
    (0 ≤ bytesPerLine → bytesPerLine < width → bpl = 3 * bytesPerLine →
      deinterlaceRow buf bpl bytesPerLine width 3 pitch off pix = none) ∧
    IMG_LoadPCX allocAll
        (some ⟨mkHeader 0 8 2 0 3 2 ++ List.replicate 6 9, 0⟩) =
      (none, some .corruptData,
        some ⟨mkHeader 0 8 2 0 3 2 ++ List.replicate 6 9, 0⟩) := by
  have hmain : deinterlaceRow buf bpl bytesPerLine width 3 pitch off pix =
      some pix1 →
      ∀ p x : Nat, p < 3 → x < width.toNat →
        (p : Int) * bytesPerLine + (x : Int) < bpl ∧ p + 3 * x < pitch := by
    intro h p x hp hx
    have hb := deintPlanes_ok_bounds buf bpl bytesPerLine width 3 pitch off
      3 0 pix pix1 h p x hp hx
    simpa using hb
  refine ⟨hmain, ?_, by decide⟩
  intro h0 hlt hbpl
  cases hres : deinterlaceRow buf bpl bytesPerLine width 3 pitch off pix with
  | none => rfl
  | some pixr =>
    exfalso
    have hb := deintPlanes_ok_bounds buf bpl bytesPerLine width 3 pitch off
      3 0 pix pixr hres 2 bytesPerLine.toNat (by omega) (by omega)
    have h1 := hb.1
    rw [hbpl] at h1
    push_cast at h1
    omega

set_option maxRecDepth 8192 in
theorem C4_deinterlace_bounds_witness :
    deinterlaceRow (List.replicate 6 9) 6 2 3 3 9 0 (List.replicate 9 0) =
      none :=
  (C4_deinterlace_bounds (List.replicate 6 9) (List.replicate 9 0) [] 6 2 3
    9 0).2.1 (by norm_num) (by norm_num) (by norm_num)

/-- When the remaining stream is `pre ++ 12 :: post` with no 12 in `pre`,
the marker scan stops immediately after the first 12. -/
theorem markerScan_found (d : List Nat) : ∀ (pre : List Nat) (p : Nat)
    (post : List Nat), d.drop p = pre ++ 12 :: post → 12 ∉ pre →
    markerScan (d.length - p) ⟨d, p⟩ = ⟨d, p + (pre.length + 1)⟩ := by
  intro pre
  induction pre with
  | nil =>
    intro p post hdrop _
    have hlen : d.length - p = post.length + 1 := by
      have hl := congrArg List.length hdrop
      simp only [List.length_drop, List.length_cons, List.nil_append] at hl
      omega
    have hget : d[p]? = some 12 := by
      have h0 : (d.drop p)[0]? = some 12 := by
        rw [hdrop]
        simp
      rw [List.getElem?_drop] at h0
      simpa using h0
    rw [hlen, markerScan, readByte, hget]
    simp
  | cons a pre ih =>
    intro p post hdrop hmem
    have ha : ¬ (a = 12) := by
      intro hc
      exact hmem (by rw [← hc]; exact List.mem_cons_self a pre)
    have hget : d[p]? = some a := by
      have h0 : (d.drop p)[0]? = some a := by
        rw [hdrop]
        simp
      rw [List.getElem?_drop] at h0
      simpa using h0
    have hdrop1 : d.drop (p + 1) = pre ++ 12 :: post := by
      rw [← List.tail_drop, hdrop]
      rfl
    have hp : p < d.length := by
      have hl := congrArg List.length hdrop
      simp only [List.length_drop, List.length_append, List.length_cons] at hl
      omega
    have hlen : d.length - p = (d.length - (p + 1)) + 1 := by omega
    rw [hlen, markerScan, readByte, hget]
    simp only
    rw [if_neg ha, ih (p + 1) post hdrop1
      (fun hc => hmem (List.mem_cons_of_mem a hc))]
    have : p + 1 + (pre.length + 1) = p + ((a :: pre).length + 1) := by
      simp only [List.length_cons]
      omega
    rw [this]

/-- When no 12 remains in the stream, the marker scan runs to the end of
the stream and falls back to seeking 768 bytes before the end. -/
theorem markerScan_none (d : List Nat) : ∀ (n p : Nat), n = d.length - p →
    12 ∉ d.drop p → p ≤ d.length →
    markerScan n ⟨d, p⟩ = seekEnd ⟨d, d.length⟩ (-768) := by
  intro n
  induction n with
  | zero =>
    intro p hn _ hp
    have hpl : p = d.length := by omega
    rw [markerScan, hpl]
  | succ n ih =>
    intro p hn hmem hp
    have hp1 : p < d.length := by omega
    have hget : d[p]? = some d[p] := List.getElem?_eq_getElem hp1
    have hbmem : d[p] ∈ d.drop p := by
      have h0 : (d.drop p)[0]? = some d[p] := by
        rw [List.getElem?_drop]
        simpa using hget
      exact List.getElem?_mem h0
    have hbne : ¬ (d[p] = 12) := by
      intro hc
      rw [hc] at hbmem
      exact hmem hbmem
    rw [markerScan, readByte, hget]
    simp only
    rw [if_neg hbne]
    refine ih (p + 1) (by omega) ?_ (by omega)
    intro hc
    rw [← List.tail_drop] at hc
    exact hmem (List.mem_of_mem_tail hc)

/-- Claim **C7**.  The 256-colour palette resolver: it scans forward for the
first marker byte 12; if found with at least 768 bytes after it, those
bytes are copied verbatim as 256 RGB triples and the stream ends right
after them; if found with fewer than 768 bytes after it, the read fails
as `truncated`.  If no marker remains, it seeks to exactly 768 bytes
before the stream's end and reads the palette from there — succeeding
with the last 768 bytes when the stream holds at least 768, and failing
as `truncated` otherwise. -/
theorem C7_palette_resolver (s : MemStream) (pre post : List Nat)
    (hsplit : s.data.drop s.pos = pre ++ 12 :: post) (hpre : 12 ∉ pre) :
    (768 ≤ post.length →
      resolvePalette256 s = .ok (paletteOfBytes (post.take 768),
        ⟨s.data, s.pos + (pre.length + 1) + 768⟩)) ∧
    (post.length < 768 → resolvePalette256 s = .error .truncated) ∧
    (∀ t : MemStream, 12 ∉ t.data.drop t.pos → t.pos ≤ t.data.length →
      (768 ≤ t.data.length →
        resolvePalette256 t = .ok
          (paletteOfBytes ((t.data.drop (t.data.length - 768)).take 768),
            ⟨t.data, t.data.length⟩)) ∧
      (t.data.length < 768 → resolvePalette256 t = .error .truncated)) := by
  have hscan : markerScan s.remaining s = ⟨s.data, s.pos + (pre.length + 1)⟩ := by
    have hs : s = ⟨s.data, s.pos⟩ := rfl
    rw [MemStream.remaining]
    exact markerScan_found s.data pre s.pos post hsplit hpre
  have hdropm : s.data.drop (s.pos + (pre.length + 1)) = post := by
    rw [← List.drop_drop, hsplit]
    simp [List.drop_append_of_le_length]
  have hremm : MemStream.remaining ⟨s.data, s.pos + (pre.length + 1)⟩ =
      post.length := by
    have := congrArg List.length hdropm
    simpa [MemStream.remaining] using this
  refine ⟨?_, ?_, ?_⟩
  · intro h768
    have hfull := readBytes_full ⟨s.data, s.pos + (pre.length + 1)⟩ 768
      (by rw [hremm]; exact h768)
    rw [resolvePalette256, hscan, if_pos hfull.1, hfull.2.2, hfull.2.1, hdropm]
  · intro hshort
    have hlen : ((readBytes ⟨s.data, s.pos + (pre.length + 1)⟩ 768).1).length =
        min 768 post.length := by
      simp only [readBytes, hremm, List.length_take, List.length_drop]
      have := congrArg List.length hdropm
      simp only [List.length_drop] at this
      omega
    rw [resolvePalette256, hscan, if_neg]
    rw [hlen]
    omega
  · intro t hmem hple
    have hscant : markerScan t.remaining t = seekEnd ⟨t.data, t.data.length⟩
        (-768) := by
      rw [MemStream.remaining]
      exact markerScan_none t.data (t.data.length - t.pos) t.pos rfl hmem hple
    constructor
    · intro h768
      have hse : seekEnd ⟨t.data, t.data.length⟩ (-768) =
          ⟨t.data, t.data.length - 768⟩ := by
        have hcond : (0 : Int) ≤ (t.data.length : Int) + (-768) ∧
            (t.data.length : Int) + (-768) ≤ (t.data.length : Int) := by
          constructor <;> omega
        rw [seekEnd, if_pos hcond]
        show MemStream.mk t.data (((t.data.length : Int) + (-768)).toNat) =
          MemStream.mk t.data (t.data.length - 768)
        exact congrArg (MemStream.mk t.data) (by omega)
      have hfull := readBytes_full ⟨t.data, t.data.length - 768⟩ 768
        (by simp only [MemStream.remaining]; omega)
      rw [resolvePalette256, hscant, hse, if_pos hfull.1, hfull.2.2, hfull.2.1]
      have : t.data.length - 768 + 768 = t.data.length := by omega
      rw [this]
    · intro hshort
      have hse : seekEnd ⟨t.data, t.data.length⟩ (-768) =
          ⟨t.data, t.data.length⟩ := by
        have hcond : ¬ ((0 : Int) ≤ (t.data.length : Int) + (-768) ∧
            (t.data.length : Int) + (-768) ≤ (t.data.length : Int)) := by
          intro hc
          omega
        rw [seekEnd, if_neg hcond]
      have hlen : ((readBytes ⟨t.data, t.data.length⟩ 768).1).length = 0 := by
        simp [readBytes, MemStream.remaining]
      rw [resolvePalette256, hscant, hse, if_neg]
      rw [hlen]
      omega

/-- Value of `getD` after `set` at the written position. -/
theorem getD_set_self (l : List Nat) (x v : Nat) (h : x < l.length) :
    (l.set x v).getD x 0 = v := by
  rw [List.getD_eq_getElem?_getD, List.getElem?_set, if_pos rfl, if_pos h]
  rfl

/-- Value of `getD` after `set` at any other position. -/
theorem getD_set_ne (l : List Nat) (x c v : Nat) (h : ¬ (x = c)) :
    (l.set x v).getD c 0 = l.getD c 0 := by
  rw [List.getD_eq_getElem?_getD, List.getD_eq_getElem?_getD,
    List.getElem?_set_ne h]

/-- Bit loop over a fully accepted byte (all of its bit columns are below
the width): emits the byte's bits most-significant first into positions
`x, x+1, …, x+m-1`, ORing bit `x+m-1-c` into position `c`. -/
theorem planarKLoop_acc (byte j plane W : Nat) :
    ∀ (m x : Nat) (pix : List Nat), j * 8 + m ≤ W → x + m ≤ pix.length →
      (planarKLoop byte j (W : Int) plane 0 m pix x).2 = x + m ∧
      ((planarKLoop byte j (W : Int) plane 0 m pix x).1).length = pix.length ∧
      ∀ c : Nat, ((planarKLoop byte j (W : Int) plane 0 m pix x).1).getD c 0 =
        if x ≤ c ∧ c < x + m then
          pix.getD c 0 ||| (((byte >>> (x + m - 1 - c)) &&& 1) <<< plane)
        else pix.getD c 0 := by
  intro m
  induction m with
  | zero =>
    intro x pix hacc hlen
    refine ⟨rfl, rfl, ?_⟩
    intro c
    rw [if_neg (by omega)]
    rfl
  | succ m ih =>
    intro x pix hacc hlen
    rw [planarKLoop]
    have hcond : ((j * 8 + m : Nat) : Int) < ((W : Nat) : Int) := by
      exact_mod_cast (by omega : j * 8 + m < W)
    rw [if_pos hcond]
    simp only [Nat.zero_add]
    set v := pix.getD x 0 ||| (((byte >>> m) &&& 1) <<< plane) with hv
    have hrec := ih (x + 1) (pix.set x v)
      (by omega) (by rw [List.length_set]; omega)
    refine ⟨by rw [hrec.1]; omega, by rw [hrec.2.1, List.length_set], ?_⟩
    intro c
    rw [hrec.2.2 c]
    by_cases hc1 : x + 1 ≤ c ∧ c < x + 1 + m
    · rw [if_pos hc1, if_pos (by omega)]
      rw [getD_set_ne pix x c v (by omega)]
      have hsh : x + 1 + m - 1 - c = x + (m + 1) - 1 - c := by omega
      rw [hsh]
    · rw [if_neg hc1]
      by_cases hc0 : c = x
      · rw [hc0, if_pos (by omega)]
        rw [getD_set_self pix x v (by omega), hv]
        have hsh : x + (m + 1) - 1 - x = m := by omega
        rw [hsh]
      · rw [if_neg (by omega)]
        rw [getD_set_ne pix x c v (by omega)]

/-- Bit loop over a fully skipped byte (all of its bit columns are at or
beyond the width): writes nothing and leaves the column counter alone. -/
theorem planarKLoop_skip (byte j plane W : Nat) :
    ∀ (m x : Nat) (pix : List Nat), W ≤ j * 8 →
      planarKLoop byte j (W : Int) plane 0 m pix x = (pix, x) := by
  intro m
  induction m with
  | zero =>
    intro x pix hskip
    rfl
  | succ m ih =>
    intro x pix hskip
    rw [planarKLoop]
    have hcond : ¬ (((j * 8 + m : Nat) : Int) < ((W : Nat) : Int)) := by
      have : W ≤ j * 8 + m := by omega
      exact_mod_cast not_lt.mpr this
    rw [if_neg hcond]
    exact ih x pix hskip

/-- Byte loop of one plane when every byte is either fully below the width
or fully at/beyond it: accepted bits land at their most-significant-first
columns and padding bits are discarded. -/
theorem planarJLoop_char (buf : List Nat) (base plane W : Nat) :
    ∀ (rem j x : Nat) (pix : List Nat),
      (∀ t : Nat, j ≤ t → t < j + rem → 8 * (t + 1) ≤ W ∨ W ≤ 8 * t) →
      x = min (8 * j) W → W ≤ pix.length →
      ((planarJLoop buf base (W : Int) plane 0 j rem pix x).length =
          pix.length ∧
        ∀ c : Nat,
          (planarJLoop buf base (W : Int) plane 0 j rem pix x).getD c 0 =
            if 8 * j ≤ c ∧ c < W ∧ c < 8 * (j + rem) then
              pix.getD c 0 |||
                (((buf.getD (base + c / 8) 0 >>> (7 - c % 8)) &&& 1) <<< plane)
            else pix.getD c 0) := by
  intro rem
  induction rem with
  | zero =>
    intro j x pix _ _ _
    rw [planarJLoop]
    refine ⟨rfl, ?_⟩
    intro c
    rw [if_neg (by omega)]
  | succ rem ih =>
    intro j x pix hdich hx hlen
    rw [planarJLoop]
    rcases hdich j (le_refl j) (by omega) with hfull | hskip
    · have hx8 : x = 8 * j := by omega
      have hkl := planarKLoop_acc (buf.getD (base + j) 0) j plane W 8 x pix
        (by omega) (by omega)
      have hdich1 : ∀ t : Nat, j + 1 ≤ t → t < (j + 1) + rem →
          8 * (t + 1) ≤ W ∨ W ≤ 8 * t :=
        fun t ht1 ht2 => hdich t (by omega) (by omega)
      have hih := ih (j + 1)
        ((planarKLoop (buf.getD (base + j) 0) j (W : Int) plane 0 8 pix x).2)
        ((planarKLoop (buf.getD (base + j) 0) j (W : Int) plane 0 8 pix x).1)
        hdich1 (by rw [hkl.1]; omega) (by rw [hkl.2.1]; exact hlen)
      refine ⟨by rw [hih.1, hkl.2.1], ?_⟩
      intro c
      rw [hih.2 c]
      by_cases hA : 8 * (j + 1) ≤ c ∧ c < W ∧ c < 8 * (j + 1 + rem)
      · rw [if_pos hA, hkl.2.2 c]
        have hcb : ¬ (x ≤ c ∧ c < x + 8) := by omega
        rw [if_neg hcb]
        have hB : 8 * j ≤ c ∧ c < W ∧ c < 8 * (j + (rem + 1)) := by omega
        rw [if_pos hB]
      · rw [if_neg hA, hkl.2.2 c]
        by_cases hB : 8 * j ≤ c ∧ c < W ∧ c < 8 * (j + (rem + 1))
        · have hcb : x ≤ c ∧ c < x + 8 := by omega
          rw [if_pos hcb, if_pos hB]
          have hdiv : c / 8 = j := by omega
          have hmod : x + 8 - 1 - c = 7 - c % 8 := by omega
          rw [hdiv, hmod]
        · have hcb : ¬ (x ≤ c ∧ c < x + 8) := by omega
          rw [if_neg hcb, if_neg hB]
    · have hkl := planarKLoop_skip (buf.getD (base + j) 0) j plane W 8 x pix
        (by omega)
      rw [hkl]
      simp only
      have hih := ih (j + 1) x pix
        (fun t ht1 ht2 => hdich t (by omega) (by omega)) (by omega) hlen
      refine ⟨hih.1, ?_⟩
      intro c
      rw [hih.2 c]
      by_cases hA : 8 * (j + 1) ≤ c ∧ c < W ∧ c < 8 * (j + 1 + rem)
      · rw [if_pos hA]
        have hB : 8 * j ≤ c ∧ c < W ∧ c < 8 * (j + (rem + 1)) := by omega
        rw [if_pos hB]
      · rw [if_neg hA]
        have hB : ¬ (8 * j ≤ c ∧ c < W ∧ c < 8 * (j + (rem + 1))) := by omega
        rw [if_neg hB]

/-- Plane loop under the byte dichotomy: every written column accumulates
the OR over planes of its most-significant-first bit contribution, and
columns at or beyond the width are untouched. -/
theorem planarPlanes_char (buf : List Nat) (bytesPerLine : Int) (W : Nat)
    (hdich : ∀ t : Nat, t < bytesPerLine.toNat → 8 * (t + 1) ≤ W ∨ W ≤ 8 * t) :
    ∀ (r p0 : Nat) (pix : List Nat), W ≤ pix.length →
      ((planarPlanes buf bytesPerLine (W : Int) 0 p0 r pix).length =
          pix.length ∧
        ∀ c : Nat,
          (planarPlanes buf bytesPerLine (W : Int) 0 p0 r pix).getD c 0 =
            if c < W then
              pix.getD c 0 ||| specPlanarOr buf bytesPerLine c p0 r
            else pix.getD c 0) := by
  intro r
  induction r with
  | zero =>
    intro p0 pix hlen
    rw [planarPlanes]
    refine ⟨rfl, ?_⟩
    intro c
    rw [specPlanarOr]
    by_cases hc : c < W
    · rw [if_pos hc, Nat.or_zero]
    · rw [if_neg hc]
  | succ r ih =>
    intro p0 pix hlen
    rw [planarPlanes]
    have hj := planarJLoop_char buf (p0 * bytesPerLine.toNat) p0 W
      bytesPerLine.toNat 0 0 pix
      (fun t _ ht2 => hdich t (by omega)) (by omega) hlen
    have hih := ih (p0 + 1)
      (planarJLoop buf (p0 * bytesPerLine.toNat) (W : Int) p0 0 0
        bytesPerLine.toNat pix 0)
      (by rw [hj.1]; exact hlen)
    refine ⟨by rw [hih.1, hj.1], ?_⟩
    intro c
    rw [hih.2 c, hj.2 c, specPlanarOr]
    by_cases hc : c < W
    · rw [if_pos hc, if_pos hc]
      by_cases hcb : c < 8 * bytesPerLine.toNat
      · rw [if_pos (show 8 * 0 ≤ c ∧ c < W ∧ c < 8 * (0 + bytesPerLine.toNat)
          by omega)]
        rw [if_pos (show c / 8 < bytesPerLine.toNat by omega)]
        exact Nat.or_assoc _ _ _
      · rw [if_neg (show ¬ (8 * 0 ≤ c ∧ c < W ∧
          c < 8 * (0 + bytesPerLine.toNat)) by omega)]
        rw [if_neg (show ¬ (c / 8 < bytesPerLine.toNat) by omega),
          Nat.zero_or]
    · rw [if_neg hc, if_neg hc]
      rw [if_neg (show ¬ (8 * 0 ≤ c ∧ c < W ∧
        c < 8 * (0 + bytesPerLine.toNat)) by omega)]

/-- Two lists are equal when they have the same length and agree at every
in-range position. -/
theorem list_eq_of_getD (l1 l2 : List Nat) (hlen : l1.length = l2.length)
    (h : ∀ c : Nat, c < l1.length → l1.getD c 0 = l2.getD c 0) : l1 = l2 := by
  apply List.ext_getElem?
  intro i
  by_cases hi : i < l1.length
  · have h1 : l1[i]? = some l1[i] := List.getElem?_eq_getElem hi
    have h2 : l2[i]? = some l2[i] := List.getElem?_eq_getElem (by omega)
    have hg := h i hi
    rw [List.getD_eq_getElem?_getD, List.getD_eq_getElem?_getD, h1, h2] at hg
    rw [h1, h2]
    simpa using hg
  · rw [List.getElem?_eq_none (by omega), List.getElem?_eq_none (by omega)]

/-- Length of the spec-side planar row. -/
theorem specPlanarRow_length (buf : List Nat) (nplanes : Nat)
    (bytesPerLine width : Int) (pix : List Nat) :
    (specPlanarRow buf nplanes bytesPerLine width pix).length = pix.length := by
  rw [specPlanarRow, List.length_map, List.length_range]

/-- Pointwise value of the spec-side planar row. -/
theorem specPlanarRow_getD (buf : List Nat) (nplanes : Nat)
    (bytesPerLine width : Int) (pix : List Nat) (c : Nat)
    (hc : c < pix.length) :
    (specPlanarRow buf nplanes bytesPerLine width pix).getD c 0 =
      if (c : Int) < width then
        pix.getD c 0 ||| specPlanarPixel buf bytesPerLine c nplanes
      else pix.getD c 0 := by
  rw [specPlanarRow, List.getD_eq_getElem?_getD, List.getElem?_map,
    List.getElem?_range hc]
  rfl

/-- Claim **C5** (amended).  When the row width is a multiple of 8 — or at least
`8 × bytes_per_scanline`, so that no byte is partially padded — the code's
planar reconstruction agrees exactly with the spec's description: each
plane is visited most-significant bit first, each bit whose column is
below the width is ORed (shifted by its plane number) into the byte at
that column, and padding bits are discarded without being written.  For
widths that are neither, the code's `j*8 + k >= width` padding test skips
the most-significant bits of the partially padded byte and shifts the
remaining bits leftward (see the counterexample).  In particular, with
bits-per-pixel 1 and two planes of row bytes `0x80`, pixel 0 receives
index 3. -/
theorem C5_planar_reconstruction (buf pix : List Nat) (nplanes : Nat)
    (bytesPerLine : Int) (W : Nat)
    (h8 : 8 ∣ W ∨ 8 * bytesPerLine.toNat ≤ W) (hlen : W ≤ pix.length) :
    expandPlanar buf nplanes bytesPerLine (W : Int) 0 pix =
      specPlanarRow buf nplanes bytesPerLine (W : Int) pix ∧
    expandPlanar [0x80, 0x80] 2 1 8 0 (List.replicate 8 0) =
      [3, 0, 0, 0, 0, 0, 0, 0] := by
  have hdich : ∀ t : Nat, t < bytesPerLine.toNat →
      8 * (t + 1) ≤ W ∨ W ≤ 8 * t := by
    intro t ht
    rcases h8 with ⟨m, hm⟩ | hge
    · by_cases hmt : t < m
      · left
        omega
      · right
        omega
    · left
      omega
  have hpp := planarPlanes_char buf bytesPerLine W hdich nplanes 0 pix hlen
  refine ⟨?_, by decide⟩
  rw [expandPlanar]
  apply list_eq_of_getD
  · rw [hpp.1, specPlanarRow_length]
  · intro c hc
    have hc1 : c < pix.length := by
      rw [hpp.1] at hc
      exact hc
    rw [hpp.2 c, specPlanarRow_getD buf nplanes bytesPerLine (W : Int) pix c hc1]
    by_cases hw : c < W
    · rw [if_pos hw, if_pos (by exact_mod_cast hw)]
      rfl
    · rw [if_neg hw, if_neg (by exact_mod_cast hw)]

theorem C5_planar_reconstruction_witness :
    expandPlanar [0x80, 0x80] 2 1 8 0 (List.replicate 8 0) =
      specPlanarRow [0x80, 0x80] 2 1 8 (List.replicate 8 0) :=
  (C5_planar_reconstruction [0x80, 0x80] (List.replicate 8 0) 2 1 8
    (Or.inl ⟨1, rfl⟩) (by decide)).1

/-- Claim **C5** counterexample.  With width 4 and one single-byte plane `0x80`,
the claim (most-significant bit first, column below width written at that
column) makes pixel 0 take the byte's most significant bit, so the row
should be `[1, 0, 0, 0]`; the code's padding test `j*8 + k >= width` skips
bits with `k ≥ 4` — the HIGH bits — so the row's pixels take the byte's
low bits instead and the result is `[0, 0, 0, 0]`. -/
theorem C5_counterexample :
    expandPlanar [0x80] 1 1 4 0 [0, 0, 0, 0] = [0, 0, 0, 0] ∧
    specPlanarRow [0x80] 1 1 4 [0, 0, 0, 0] = [1, 0, 0, 0] ∧
    ¬ expandPlanar [0x80] 1 1 4 0 [0, 0, 0, 0] =
        specPlanarRow [0x80] 1 1 4 [0, 0, 0, 0] := by decide

set_option maxRecDepth 8192 in
theorem C7_palette_resolver_witness :
    resolvePalette256 ⟨12 :: List.replicate 768 5, 0⟩ =
      .ok (paletteOfBytes ((List.replicate 768 5).take 768),
        ⟨12 :: List.replicate 768 5, 0 + (0 + 1) + 768⟩) :=
  (C7_palette_resolver ⟨12 :: List.replicate 768 5, 0⟩ [] (List.replicate 768 5)
    (by simp) (by simp)).1 (by simp)

end PCX
